import Mathlib

/-!
Shallow embedding of the evaluation / metric-aggregation pipeline of
`pytorch_segmentation/evaluation.py`.

Modelling conventions:
* a numpy / torch tensor is represented by its value function or, where the
  code flattens it, by a `List`;
* an `n × n` confusion matrix (a numpy integer array of counts) is a function
  `ℕ → ℕ → ℕ` together with its size `n`; sums along an axis are `Finset`
  sums over `Finset.range n`;
* real-valued scores (logits, metric values) are rationals `ℚ`, so that the
  exact arithmetic of the code (integer counts divided by integer unions) is
  preserved;
* numpy integer arithmetic is carried out in `ℤ` where a subtraction occurs.
-/

/-- Embedding of `get_iou` (evaluation.py lines 262-281): per-class
intersection over union of a confusion matrix.  `intersection` is the
diagonal, `gt_set` the row sums (axis 1), `predicted_set` the column sums
(axis 0); a union of exactly `0` is replaced by `eps = 1` before the
division. -/
def get_iou (n : ℕ) (M : ℕ → ℕ → ℕ) (i : ℕ) : ℚ :=
  let intersection : ℤ := M i i
  let gt_set : ℤ := ∑ k ∈ Finset.range n, (M i k : ℤ)
  let predicted_set : ℤ := ∑ k ∈ Finset.range n, (M k i : ℤ)
  let union : ℤ := gt_set + predicted_set - intersection
  let padded : ℤ := if union = 0 then 1 else union
  (intersection : ℚ) / (padded : ℚ)

/-- Embedding of `get_precision_recall` (evaluation.py lines 284-297):
class-wise precision and recall of a confusion matrix.  Precision divides the
diagonal by `max(column_sum, 1)`, recall by `max(row_sum, 1)`. -/
def get_precision_recall (n : ℕ) (M : ℕ → ℕ → ℕ) : (ℕ → ℚ) × (ℕ → ℚ) :=
  (fun i => (M i i : ℚ) / max ((∑ k ∈ Finset.range n, M k i : ℕ) : ℚ) 1,
   fun i => (M i i : ℚ) / max ((∑ k ∈ Finset.range n, M i k : ℕ) : ℚ) 1)

/-- The 2 × 2 matrix `[[5, 1], [2, 3]]` of the worked scenario. -/
def ex_matrix : ℕ → ℕ → ℕ := fun i j => (([[5, 1], [2, 3]].getD i []).getD j 0)

lemma diag_le_row (n : ℕ) (M : ℕ → ℕ → ℕ) (i : ℕ) (hi : i < n) :
    (M i i : ℤ) ≤ ∑ k ∈ Finset.range n, (M i k : ℤ) :=
  Finset.single_le_sum (f := fun k => (M i k : ℤ)) (fun k _ => by positivity)
    (Finset.mem_range.mpr hi)

lemma diag_le_col (n : ℕ) (M : ℕ → ℕ → ℕ) (i : ℕ) (hi : i < n) :
    (M i i : ℤ) ≤ ∑ k ∈ Finset.range n, (M k i : ℤ) :=
  Finset.single_le_sum (f := fun k => (M k i : ℤ)) (fun k _ => by positivity)
    (Finset.mem_range.mpr hi)

/-- C2: `get_iou` computes diagonal / (row sum + column sum − diagonal) with
a zero union replaced by 1; every value lies in [0, 1]; a class with zero
ground truth and zero predictions gets IoU exactly 0; on `[[5,1],[2,3]]` the
result is `[0.625, 0.5]`. -/
theorem get_iou_spec (n : ℕ) (M : ℕ → ℕ → ℕ) (i : ℕ) (hi : i < n) :
    (get_iou n M i =
      (M i i : ℚ) /
        ((if (∑ k ∈ Finset.range n, (M i k : ℤ)) +
              (∑ k ∈ Finset.range n, (M k i : ℤ)) - (M i i : ℤ) = 0 then 1
          else (∑ k ∈ Finset.range n, (M i k : ℤ)) +
              (∑ k ∈ Finset.range n, (M k i : ℤ)) - (M i i : ℤ) : ℤ) : ℚ)) ∧
    0 ≤ get_iou n M i ∧ get_iou n M i ≤ 1 ∧
    ((∑ k ∈ Finset.range n, M i k) = 0 ∧ (∑ k ∈ Finset.range n, M k i) = 0 →
      get_iou n M i = 0) ∧
    get_iou 2 ex_matrix 0 = 5 / 8 ∧ get_iou 2 ex_matrix 1 = 1 / 2 := by
  have hex0 : get_iou 2 ex_matrix 0 = 5 / 8 := by
    norm_num [get_iou, ex_matrix, Finset.sum_range_succ]
  have hex1 : get_iou 2 ex_matrix 1 = 1 / 2 := by
    norm_num [get_iou, ex_matrix, Finset.sum_range_succ]
  have hd : (0 : ℤ) ≤ (M i i : ℤ) := by positivity
  have hr := diag_le_row n M i hi
  have hc := diag_le_col n M i hi
  refine ⟨rfl, ?_, ?_, ?_, ?_, ?_⟩
  · unfold get_iou
    dsimp only
    split
    · simp
    · apply div_nonneg (by positivity)
      have : (0 : ℤ) ≤ (∑ k ∈ Finset.range n, (M i k : ℤ)) +
          (∑ k ∈ Finset.range n, (M k i : ℤ)) - (M i i : ℤ) := by omega
      exact_mod_cast this
  · unfold get_iou
    dsimp only
    split
    · rename_i h0
      have : (M i i : ℤ) = 0 := by omega
      simp [this]
    · rename_i h0
      have hle : (M i i : ℤ) ≤ (∑ k ∈ Finset.range n, (M i k : ℤ)) +
          (∑ k ∈ Finset.range n, (M k i : ℤ)) - (M i i : ℤ) := by omega
      have hpos : (0 : ℤ) < (∑ k ∈ Finset.range n, (M i k : ℤ)) +
          (∑ k ∈ Finset.range n, (M k i : ℤ)) - (M i i : ℤ) := by omega
      rw [div_le_one (by exact_mod_cast hpos)]
      exact_mod_cast hle
  · intro ⟨h1, h2⟩
    have h1z : (∑ k ∈ Finset.range n, (M i k : ℤ)) = 0 := by
      have := congrArg (Nat.cast : ℕ → ℤ) h1
      push_cast at this
      simpa using this
    have h2z : (∑ k ∈ Finset.range n, (M k i : ℤ)) = 0 := by
      have := congrArg (Nat.cast : ℕ → ℤ) h2
      push_cast at this
      simpa using this
    have hdz : (M i i : ℤ) = 0 := by omega
    unfold get_iou
    dsimp only
    simp [hdz]
  · exact hex0
  · exact hex1

/-- Closed instance of `get_iou_spec` at the scenario matrix. -/
theorem get_iou_spec_witness :
    0 ≤ get_iou 2 ex_matrix 0 ∧ get_iou 2 ex_matrix 0 ≤ 1 ∧
      get_iou 2 ex_matrix 0 = 5 / 8 := by
  have h := get_iou_spec 2 ex_matrix 0 (by decide)
  exact ⟨h.2.1, h.2.2.1, h.2.2.2.2.1⟩

/-- C3: `get_precision_recall` computes per-class precision
diagonal / max(column sum, 1) and recall diagonal / max(row sum, 1); all
values lie in [0, 1]; a class with zero predictions and zero ground truth
gets precision = recall = 0; on `[[5,1],[2,3]]` precision is `[5/7, 3/4]`
and recall is `[5/6, 3/5]`. -/
theorem get_precision_recall_spec (n : ℕ) (M : ℕ → ℕ → ℕ) (i : ℕ)
    (hi : i < n) :
    ((get_precision_recall n M).1 i =
        (M i i : ℚ) / max ((∑ k ∈ Finset.range n, M k i : ℕ) : ℚ) 1 ∧
      (get_precision_recall n M).2 i =
        (M i i : ℚ) / max ((∑ k ∈ Finset.range n, M i k : ℕ) : ℚ) 1) ∧
    (0 ≤ (get_precision_recall n M).1 i ∧ (get_precision_recall n M).1 i ≤ 1) ∧
    (0 ≤ (get_precision_recall n M).2 i ∧ (get_precision_recall n M).2 i ≤ 1) ∧
    ((∑ k ∈ Finset.range n, M k i) = 0 ∧ (∑ k ∈ Finset.range n, M i k) = 0 →
      (get_precision_recall n M).1 i = 0 ∧ (get_precision_recall n M).2 i = 0) ∧
    ((get_precision_recall 2 ex_matrix).1 0 = 5 / 7 ∧
      (get_precision_recall 2 ex_matrix).1 1 = 3 / 4 ∧
      (get_precision_recall 2 ex_matrix).2 0 = 5 / 6 ∧
      (get_precision_recall 2 ex_matrix).2 1 = 3 / 5) := by
  have hcol : (M i i : ℤ) ≤ ∑ k ∈ Finset.range n, (M k i : ℤ) :=
    diag_le_col n M i hi
  have hrow : (M i i : ℤ) ≤ ∑ k ∈ Finset.range n, (M i k : ℤ) :=
    diag_le_row n M i hi
  have hcolQ : (M i i : ℚ) ≤ ((∑ k ∈ Finset.range n, M k i : ℕ) : ℚ) := by
    have : (M i i : ℤ) ≤ ((∑ k ∈ Finset.range n, M k i : ℕ) : ℤ) := by
      push_cast
      exact hcol
    exact_mod_cast this
  have hrowQ : (M i i : ℚ) ≤ ((∑ k ∈ Finset.range n, M i k : ℕ) : ℚ) := by
    have : (M i i : ℤ) ≤ ((∑ k ∈ Finset.range n, M i k : ℕ) : ℤ) := by
      push_cast
      exact hrow
    exact_mod_cast this
  have hmaxc : (0 : ℚ) < max ((∑ k ∈ Finset.range n, M k i : ℕ) : ℚ) 1 :=
    lt_max_of_lt_right one_pos
  have hmaxr : (0 : ℚ) < max ((∑ k ∈ Finset.range n, M i k : ℕ) : ℚ) 1 :=
    lt_max_of_lt_right one_pos
  refine ⟨⟨rfl, rfl⟩, ⟨?_, ?_⟩, ⟨?_, ?_⟩, ?_, ?_, ?_, ?_, ?_⟩
  · exact div_nonneg (by positivity) (le_of_lt hmaxc)
  · rw [show (get_precision_recall n M).1 i =
        (M i i : ℚ) / max ((∑ k ∈ Finset.range n, M k i : ℕ) : ℚ) 1 from rfl,
      div_le_one hmaxc]
    exact le_trans hcolQ (le_max_left _ _)
  · exact div_nonneg (by positivity) (le_of_lt hmaxr)
  · rw [show (get_precision_recall n M).2 i =
        (M i i : ℚ) / max ((∑ k ∈ Finset.range n, M i k : ℕ) : ℚ) 1 from rfl,
      div_le_one hmaxr]
    exact le_trans hrowQ (le_max_left _ _)
  · intro ⟨h1, h2⟩
    have hle : M i i ≤ ∑ k ∈ Finset.range n, M i k :=
      Finset.single_le_sum (f := fun k => M i k) (fun k _ => Nat.zero_le _)
        (Finset.mem_range.mpr hi)
    have hz : M i i = 0 := by omega
    constructor
    · simp [get_precision_recall, hz]
    · simp [get_precision_recall, hz]
  · norm_num [get_precision_recall, ex_matrix, Finset.sum_range_succ]
  · norm_num [get_precision_recall, ex_matrix, Finset.sum_range_succ]
  · norm_num [get_precision_recall, ex_matrix, Finset.sum_range_succ]
  · norm_num [get_precision_recall, ex_matrix, Finset.sum_range_succ]

/-- Closed instance of `get_precision_recall_spec` at the scenario matrix. -/
theorem get_precision_recall_spec_witness :
    0 ≤ (get_precision_recall 2 ex_matrix).1 0 ∧
      (get_precision_recall 2 ex_matrix).1 0 ≤ 1 ∧
      (get_precision_recall 2 ex_matrix).1 0 = 5 / 7 ∧
      (get_precision_recall 2 ex_matrix).2 0 = 5 / 6 := by
  have h := get_precision_recall_spec 2 ex_matrix 0 (by decide)
  exact ⟨h.2.1.1, h.2.1.2, h.2.2.2.2.1, h.2.2.2.2.2.2.1⟩

namespace compress_objpart_logits

/-- Embedding of the helper `to_pair` nested in `compress_objpart_logits`
(evaluation.py lines 243-248): a combined object-part label above
`num_to_aggregate` is a part, paired with the object channel
`ind - num_to_aggregate` (task bit 1); otherwise it is an object, paired
with the part channel `ind + num_to_aggregate` (task bit 0). -/
def to_pair (ind num_to_aggregate : Int) : ℕ × List Int :=
  if ind > num_to_aggregate then (1, [ind - num_to_aggregate, ind])
  else (0, [ind, ind + num_to_aggregate])

end compress_objpart_logits

/-- C4: for a label L in [1, 2N], `to_pair` returns task bit 1 with pair
[L − N, L] when L > N and task bit 0 with pair [L, L + N] otherwise; the map
is its own structural inverse (an object label L yields part index L + N,
and `to_pair` on L + N yields L back as the paired object index); and
`to_pair 25 20 = (1, [5, 25])`. -/
theorem to_pair_spec (L N : Int) (h1 : 1 ≤ L) (h2 : L ≤ 2 * N) :
    (N < L → compress_objpart_logits.to_pair L N = (1, [L - N, L])) ∧
    (L ≤ N → compress_objpart_logits.to_pair L N = (0, [L, L + N])) ∧
    (L ≤ N → compress_objpart_logits.to_pair (L + N) N = (1, [L, L + N])) ∧
    compress_objpart_logits.to_pair 25 20 = (1, [5, 25]) := by
  refine ⟨?_, ?_, ?_, by decide⟩
  · intro h
    rw [compress_objpart_logits.to_pair, if_pos h]
  · intro h
    rw [compress_objpart_logits.to_pair, if_neg (by omega)]
  · intro h
    rw [compress_objpart_logits.to_pair, if_pos (by omega)]
    have : L + N - N = L := by ring
    rw [this]

/-- Closed instance of `to_pair_spec` at the scenario label 25 with N = 20,
together with the inverse round trip at the object label 5. -/
theorem to_pair_spec_witness :
    compress_objpart_logits.to_pair 25 20 = (1, [5, 25]) ∧
      compress_objpart_logits.to_pair (5 + 20) 20 = (1, [5, 5 + 20]) :=
  ⟨(to_pair_spec 25 20 (by decide) (by decide)).1 (by decide),
   (to_pair_spec 5 20 (by decide) (by decide)).2.2.1 (by decide)⟩

/-- Embedding of the running-matrix update of `validate_batch`
(evaluation.py lines 350-358): when the running confusion matrix is `None`
the batch matrix initializes it, otherwise the batch matrix is added
elementwise (`+=` on numpy arrays). -/
def accumulate (running : Option (ℕ → ℕ → ℕ)) (current : ℕ → ℕ → ℕ) :
    ℕ → ℕ → ℕ :=
  match running with
  | none => current
  | some M => M + current

/-- One evaluation pass: the batch matrices are folded, in order, through
`accumulate`, starting from the `None` sentinel. -/
def accumulate_pass (batches : List (ℕ → ℕ → ℕ)) : Option (ℕ → ℕ → ℕ) :=
  batches.foldl (fun acc b => some (accumulate acc b)) none

lemma accumulate_pass_from_some (l : List (ℕ → ℕ → ℕ)) :
    ∀ M : ℕ → ℕ → ℕ,
      l.foldl (fun acc b => some (accumulate acc b)) (some M) =
        some (M + l.sum) := by
  induction l with
  | nil => intro M; simp [List.sum_nil]
  | cons x xs ih =>
      intro M
      rw [List.foldl_cons, show accumulate (some M) x = M + x from rfl, ih,
        List.sum_cons]
      rw [add_assoc]

lemma accumulate_pass_eq (l : List (ℕ → ℕ → ℕ)) :
    accumulate_pass l = if l.isEmpty then none else some l.sum := by
  cases l with
  | nil => rfl
  | cons x xs =>
      rw [accumulate_pass, List.foldl_cons,
        show accumulate none x = x from rfl, accumulate_pass_from_some,
        List.sum_cons]
      rfl

/-- C5: `accumulate` returns the batch matrix when the running matrix is
`None` and the elementwise sum otherwise; consequently the matrix
accumulated over a pass does not depend on the order of the batches. -/
theorem validate_batch_accumulate (A M : ℕ → ℕ → ℕ)
    (l1 l2 : List (ℕ → ℕ → ℕ)) (hperm : l1.Perm l2) :
    accumulate none A = A ∧ accumulate (some M) A = M + A ∧
      accumulate_pass l1 = accumulate_pass l2 := by
  refine ⟨rfl, rfl, ?_⟩
  rw [accumulate_pass_eq, accumulate_pass_eq, hperm.sum_eq]
  cases l1 with
  | nil => rw [hperm.nil_eq]
  | cons x xs =>
      have : l2 ≠ [] := by
        intro h
        rw [h] at hperm
        exact List.cons_ne_nil x xs hperm.eq_nil
      cases l2 with
      | nil => exact absurd rfl this
      | cons y ys => rfl

/-- Closed instance of `validate_batch_accumulate`: two concrete one-element
matrices accumulated in either order. -/
theorem validate_batch_accumulate_witness :
    accumulate none (fun _ _ => 5) = (fun _ _ => 5) ∧
      accumulate (some fun _ _ => 3) (fun _ _ => 5) =
        (fun _ _ => 3) + (fun _ _ => 5) ∧
      accumulate_pass [(fun _ _ => 3), (fun _ _ => 5)] =
        accumulate_pass [(fun _ _ => 5), (fun _ _ => 3)] :=
  validate_batch_accumulate (fun _ _ => 5) (fun _ _ => 3)
    [(fun _ _ => 3), (fun _ _ => 5)] [(fun _ _ => 5), (fun _ _ => 3)]
    (List.Perm.swap (fun _ _ => 5) (fun _ _ => 3) [])

/-- Embedding of `flatten_logits` (evaluation.py lines 128-133): the
`(B, C, H, W)` logit tensor is permuted to `(B, H, W, C)`, made contiguous,
and viewed as a `(B*H*W, C)` array.  With the row-major layout of the
contiguous permuted tensor, flat row `k` holds the logit vector of the
spatial position `(batch, row, column) = (k / (H*W), k % (H*W) / W, k % W)`. -/
def flatten_logits (B C H W : ℕ) (logits : ℕ → ℕ → ℕ → ℕ → ℚ) :
    List (List ℚ) :=
  (List.range (B * H * W)).map (fun k =>
    (List.range C).map (fun c => logits (k / (H * W)) c (k % (H * W) / W) (k % W)))

/-- Embedding of `flatten_annotations` (evaluation.py lines 145-146): a
`(B, H, W)` annotation tensor viewed as one flat row-major list
(`view(-1)`). -/
def flatten_annotations (B H W : ℕ) (anno : ℕ → ℕ → ℕ → Int) : List Int :=
  (List.range (B * H * W)).map (fun k => anno (k / (H * W)) (k % (H * W) / W) (k % W))

/-- Embedding of `get_valid_annotations_index` (evaluation.py lines
149-153): the ascending positions of the flattened annotations whose label
differs from the mask-out value (`torch.nonzero` on the inequality mask);
an all-masked input yields the empty sequence. -/
def get_valid_annotations_index (flat : List Int) (mask_out_value : Int) :
    List ℕ :=
  (List.range flat.length).filter (fun i => flat.getD i 0 != mask_out_value)

/-- Embedding of `torch.index_select(xs, 0, index)`: the rows of `xs` at the
listed indices, in the listed order. -/
def index_select {α : Type} [Inhabited α] (xs : List α) (index : List ℕ) :
    List α :=
  index.map (fun i => xs.getD i default)

/-- Embedding of `get_valid_annos` (evaluation.py lines 156-165) applied to
the already flattened annotation sequence: the valid labels together with
their positions. -/
def get_valid_annos (anno_flatten : List Int) (mask_out_value : Int) :
    List Int × List ℕ :=
  let index := get_valid_annotations_index anno_flatten mask_out_value
  (index_select anno_flatten index, index)

/-- Embedding of `get_valid_logits` (evaluation.py lines 136-142): flatten
the logits and gather the rows at the valid positions. -/
def get_valid_logits (B C H W : ℕ) (logits : ℕ → ℕ → ℕ → ℕ → ℚ)
    (index : List ℕ) : List (List ℚ) :=
  index_select (flatten_logits B C H W logits) index

lemma map_getD_filter (p : Int → Bool) (xs : List Int) :
    ((List.range xs.length).filter (fun i => p (xs.getD i 0))).map
        (fun i => xs.getD i 0) = xs.filter p := by
  induction xs with
  | nil => rfl
  | cons x xs ih =>
      have hq : ((fun i => p ((x :: xs).getD i 0)) ∘ Nat.succ)
          = fun i => p (xs.getD i 0) := rfl
      have hf : ((fun i => (x :: xs).getD i 0) ∘ Nat.succ)
          = fun i => xs.getD i 0 := rfl
      rw [List.length_cons, List.range_succ_eq_map, List.filter_cons]
      cases hp : p x with
      | true =>
          rw [List.getD_cons_zero] at *
          simp only [hp, if_pos]
          rw [List.map_cons, List.filter_map, List.map_map, hq, hf,
            List.filter_cons, hp, ih]
          simp
      | false =>
          rw [List.getD_cons_zero] at *
          simp only [hp, Bool.false_eq_true, if_false]
          rw [List.filter_map, List.map_map, hq, hf, List.filter_cons, hp, ih]
          simp

/-- C6: the index selector returns exactly the positions whose label differs
from the ignore value, in ascending (original) order; gathering the
annotations at those positions keeps exactly the non-ignored labels; on
`[0, 255, 3, 255]` with ignore value 255 the positions are `[0, 2]` (the
background label 0 is retained); an all-masked sequence yields the empty
index and the empty gathers, for annotations and for logits alike. -/
theorem get_valid_annos_spec (flat : List Int) (mask : Int) :
    (∀ i : ℕ, i ∈ (get_valid_annos flat mask).2 ↔
        i < flat.length ∧ flat.getD i 0 ≠ mask) ∧
    List.Pairwise (fun a b => a < b) (get_valid_annos flat mask).2 ∧
    (get_valid_annos flat mask).1 = flat.filter (fun a => a != mask) ∧
    ((∀ a ∈ flat, a = mask) →
      get_valid_annos flat mask = ([], []) ∧
      ∀ B C H W logits,
        get_valid_logits B C H W logits (get_valid_annos flat mask).2 = []) ∧
    get_valid_annos [0, 255, 3, 255] 255 = ([0, 3], [0, 2]) := by
  have hidx : (get_valid_annos flat mask).2 =
      (List.range flat.length).filter (fun i => flat.getD i 0 != mask) := rfl
  refine ⟨?_, ?_, ?_, ?_, by decide⟩
  · intro i
    rw [hidx, List.mem_filter, List.mem_range, bne_iff_ne]
  · rw [hidx]
    exact (List.pairwise_lt_range flat.length).sublist
      (List.filter_sublist (List.range flat.length))
  · exact map_getD_filter (fun a => a != mask) flat
  · intro hall
    have hempty : (get_valid_annos flat mask).2 = [] := by
      rw [hidx]
      apply List.filter_eq_nil_iff.mpr
      intro i hi
      rw [List.mem_range] at hi
      have hmem : flat.getD i 0 ∈ flat := by
        rw [List.getD_eq_getElem flat 0 hi]
        exact flat.getElem_mem hi
      have hv : flat.getD i 0 = mask := hall _ hmem
      rw [hv]
      simp
    refine ⟨?_, ?_⟩
    · have hval : (get_valid_annos flat mask).1 =
          index_select flat (get_valid_annos flat mask).2 := rfl
      rw [Prod.ext_iff, hval, hempty]
      exact ⟨rfl, rfl⟩
    · intro B C H W logits
      rw [hempty]
      rfl

lemma getD_range_map {α : Type} (n k : ℕ) (f : ℕ → α) (d : α) (h : k < n) :
    ((List.range n).map f).getD k d = f k := by
  rw [List.getD_eq_getElem?_getD, List.getElem?_map, List.getElem?_range h]
  rfl

lemma flat_index_decode (b i j H W : ℕ) (hi : i < H) (hj : j < W) :
    (b * (H * W) + i * W + j) / (H * W) = b ∧
      (b * (H * W) + i * W + j) % (H * W) / W = i ∧
      (b * (H * W) + i * W + j) % W = j := by
  have hW : 0 < W := Nat.pos_of_ne_zero (by omega)
  have hr : i * W + j < H * W := by
    calc i * W + j < i * W + W := by omega
      _ = (i + 1) * W := by ring
      _ ≤ H * W := Nat.mul_le_mul_right W hi
  have hHW : 0 < H * W := Nat.lt_of_le_of_lt (Nat.zero_le _) hr
  have hsplit : b * (H * W) + i * W + j = (i * W + j) + (H * W) * b := by ring
  have hdiv : (b * (H * W) + i * W + j) / (H * W) = b := by
    rw [hsplit, Nat.add_mul_div_left _ _ hHW, Nat.div_eq_of_lt hr,
      Nat.zero_add]
  have hmod : (b * (H * W) + i * W + j) % (H * W) = i * W + j := by
    rw [hsplit, Nat.add_mul_mod_self_left, Nat.mod_eq_of_lt hr]
  have hinner : i * W + j = j + W * i := by ring
  refine ⟨hdiv, ?_, ?_⟩
  · rw [hmod, hinner, Nat.add_mul_div_left _ _ hW, Nat.div_eq_of_lt hj,
      Nat.zero_add]
  · have : (b * (H * W) + i * W + j) % W = (i * W + j) % W := by
      conv_lhs => rw [hsplit]
      rw [Nat.add_comm (i * W + j) ((H * W) * b), Nat.mul_comm H W,
        Nat.mul_assoc, Nat.mul_add_mod]
    rw [this, hinner, Nat.add_mul_mod_self_left, Nat.mod_eq_of_lt hj]

/-- C7: the flattened logits form a `(B*H*W, C)` array whose row `k` is the
logit vector of the same `(batch, row, column)` position as element `k` of
the flattened (`view(-1)`) annotation tensor: position `(b, i, j)` sits at
flat index `b*(H*W) + i*W + j` in both. -/
theorem flatten_logits_spec (B C H W : ℕ) (logits : ℕ → ℕ → ℕ → ℕ → ℚ)
    (anno : ℕ → ℕ → ℕ → Int) (b i j : ℕ)
    (hb : b < B) (hi : i < H) (hj : j < W) :
    (flatten_logits B C H W logits).length = B * H * W ∧
    (flatten_annotations B H W anno).length = B * H * W ∧
    (∀ r ∈ flatten_logits B C H W logits, r.length = C) ∧
    (flatten_logits B C H W logits).getD (b * (H * W) + i * W + j) [] =
      (List.range C).map (fun c => logits b c i j) ∧
    (flatten_annotations B H W anno).getD (b * (H * W) + i * W + j) 0 =
      anno b i j := by
  have hk : b * (H * W) + i * W + j < B * H * W := by
    have hr : i * W + j < H * W := by
      calc i * W + j < i * W + W := by omega
        _ = (i + 1) * W := by ring
        _ ≤ H * W := Nat.mul_le_mul_right W hi
    calc b * (H * W) + i * W + j < b * (H * W) + H * W := by omega
      _ = (b + 1) * (H * W) := by ring
      _ ≤ B * (H * W) := Nat.mul_le_mul_right (H * W) hb
      _ = B * H * W := by ring
  obtain ⟨hdiv, hmoddiv, hmod⟩ := flat_index_decode b i j H W hi hj
  refine ⟨?_, ?_, ?_, ?_, ?_⟩
  · rw [flatten_logits, List.length_map, List.length_range]
  · rw [flatten_annotations, List.length_map, List.length_range]
  · intro r hr
    rw [flatten_logits] at hr
    obtain ⟨k, _, hk⟩ := List.mem_map.mp hr
    rw [← hk, List.length_map, List.length_range]
  · rw [flatten_logits, getD_range_map _ _ _ _ hk, hdiv, hmoddiv, hmod]
  · rw [flatten_annotations, getD_range_map _ _ _ _ hk, hdiv, hmoddiv, hmod]

/-- Closed instance of `flatten_logits_spec` at a concrete
`(2, 2, 2, 3)` logit tensor and `(2, 2, 3)` annotation tensor at position
`(1, 1, 2)`. -/
theorem flatten_logits_spec_witness :
    (flatten_logits 2 2 2 3 (fun b c i j => (b + 10 * c + 100 * i + 1000 * j : ℚ))).length
        = 2 * 2 * 3 ∧
    (flatten_annotations 2 2 3 (fun b i j => (b + 10 * i + 100 * j : ℤ))).length
        = 2 * 2 * 3 ∧
    (∀ r ∈ flatten_logits 2 2 2 3
        (fun b c i j => (b + 10 * c + 100 * i + 1000 * j : ℚ)), r.length = 2) ∧
    (flatten_logits 2 2 2 3
        (fun b c i j => (b + 10 * c + 100 * i + 1000 * j : ℚ))).getD
          (1 * (2 * 3) + 1 * 3 + 2) [] =
      (List.range 2).map
        (fun c => ((1 : ℚ) + 10 * c + 100 * 1 + 1000 * 2 : ℚ)) ∧
    (flatten_annotations 2 2 3 (fun b i j => (b + 10 * i + 100 * j : ℤ))).getD
          (1 * (2 * 3) + 1 * 3 + 2) 0 = ((1 : ℤ) + 10 * 1 + 100 * 2 : ℤ) := by
  have h := flatten_logits_spec 2 2 2 3
    (fun b c i j => (b + 10 * c + 100 * i + 1000 * j : ℚ))
    (fun b i j => (b + 10 * i + 100 * j : ℤ)) 1 1 2
    (by decide) (by decide) (by decide)
  exact h

namespace outputs_tonp_gt

/-- Embedding of the helper `to_pair` nested in `outputs_tonp_gt`
(evaluation.py lines 202-207): the pair `[object_channel, part_channel]` of
a combined object-part label; a label above `num_to_aggregate` is a part
paired with `ind - num_to_aggregate`, otherwise an object paired with
`ind + num_to_aggregate`. -/
def to_pair (ind num_to_aggregate : Int) : List Int :=
  if ind > num_to_aggregate then [ind - num_to_aggregate, ind]
  else [ind, ind + num_to_aggregate]

end outputs_tonp_gt

/-- Tail of `np.argmax`: the index of the first maximal element among the
remaining list, given the best index and value seen so far and the index of
the next element. -/
def np_argmax_go (best_idx : ℕ) (best : ℚ) (cur : ℕ) : List ℚ → ℕ
  | [] => best_idx
  | x :: xs =>
      if best < x then np_argmax_go cur x (cur + 1) xs
      else np_argmax_go best_idx best (cur + 1) xs

/-- Embedding of `np.argmax` on a list of scores: the index of the first
element attaining the maximum (numpy breaks ties towards the lower index);
0 on the empty list. -/
def np_argmax : List ℚ → ℕ
  | [] => 0
  | x :: xs => np_argmax_go 0 x 1 xs

/-- Embedding of `outputs_tonp_gt` (evaluation.py lines 191-227), as the
value function of the produced prediction array.  The array starts as
zeros; at every index whose annotation is `> 0` and `≠ 255` it receives
the "aided" prediction: of the two paired channels of the ground-truth
label (with `num_to_aggregate = 20`), the one whose logit at that pixel is
larger (`np.argmax` over exactly those two scores).  `logits` is the value
function of the `(batch, channel, row, column)` logit tensor and `anno`
that of the `(batch, row, column)` annotation tensor. -/
def outputs_tonp_gt (logits : ℕ → Int → ℕ → ℕ → ℚ) (anno : ℕ → ℕ → ℕ → Int)
    (b i j : ℕ) : Int :=
  let anno_ind := anno b i j
  if anno_ind > 0 ∧ anno_ind ≠ 255 then
    let channel_indices := outputs_tonp_gt.to_pair anno_ind 20
    channel_indices.getD
      (np_argmax (channel_indices.map (fun ci => logits b ci i j))) 0
  else 0

lemma np_argmax_two (s0 s1 : ℚ) :
    np_argmax [s0, s1] = if s0 < s1 then 1 else 0 := by
  rw [np_argmax, np_argmax_go]
  split <;> rfl

lemma outputs_tonp_gt_of_valid (logits : ℕ → Int → ℕ → ℕ → ℚ)
    (anno : ℕ → ℕ → ℕ → Int) (b i j : ℕ)
    (h1 : anno b i j > 0) (h2 : anno b i j ≠ 255) :
    outputs_tonp_gt logits anno b i j ∈
        outputs_tonp_gt.to_pair (anno b i j) 20 ∧
      ∀ c ∈ outputs_tonp_gt.to_pair (anno b i j) 20,
        logits b c i j ≤ logits b (outputs_tonp_gt logits anno b i j) i j := by
  have hif : outputs_tonp_gt logits anno b i j =
      (outputs_tonp_gt.to_pair (anno b i j) 20).getD
        (np_argmax ((outputs_tonp_gt.to_pair (anno b i j) 20).map
          (fun ci => logits b ci i j))) 0 := by
    rw [outputs_tonp_gt]
    simp only [if_pos (And.intro h1 h2)]
  rcases le_or_lt (anno b i j) 20 with hc | hc
  · have hpair : outputs_tonp_gt.to_pair (anno b i j) 20 =
        [anno b i j, anno b i j + 20] := by
      rw [outputs_tonp_gt.to_pair, if_neg (by omega)]
    rw [hif, hpair]
    rw [List.map_cons, List.map_cons, List.map_nil, np_argmax_two]
    rcases lt_or_le (logits b (anno b i j) i j)
        (logits b (anno b i j + 20) i j) with hlt | hle
    · rw [if_pos hlt]
      refine ⟨by simp, ?_⟩
      intro c hcmem
      rcases List.mem_cons.mp hcmem with hceq | hcmem2
      · rw [List.getD_cons_succ, List.getD_cons_zero, hceq]
        exact le_of_lt hlt
      · rcases List.mem_cons.mp hcmem2 with hceq | habs
        · rw [List.getD_cons_succ, List.getD_cons_zero, hceq]
        · exact absurd habs (List.not_mem_nil c)
    · rw [if_neg (not_lt.mpr hle)]
      refine ⟨by simp, ?_⟩
      intro c hcmem
      rcases List.mem_cons.mp hcmem with hceq | hcmem2
      · rw [List.getD_cons_zero, hceq]
      · rcases List.mem_cons.mp hcmem2 with hceq | habs
        · rw [List.getD_cons_zero, hceq]
          exact hle
        · exact absurd habs (List.not_mem_nil c)
  · have hpair : outputs_tonp_gt.to_pair (anno b i j) 20 =
        [anno b i j - 20, anno b i j] := by
      rw [outputs_tonp_gt.to_pair, if_pos hc]
    rw [hif, hpair]
    rw [List.map_cons, List.map_cons, List.map_nil, np_argmax_two]
    rcases lt_or_le (logits b (anno b i j - 20) i j)
        (logits b (anno b i j) i j) with hlt | hle
    · rw [if_pos hlt]
      refine ⟨by simp, ?_⟩
      intro c hcmem
      rcases List.mem_cons.mp hcmem with hceq | hcmem2
      · rw [List.getD_cons_succ, List.getD_cons_zero, hceq]
        exact le_of_lt hlt
      · rcases List.mem_cons.mp hcmem2 with hceq | habs
        · rw [List.getD_cons_succ, List.getD_cons_zero, hceq]
        · exact absurd habs (List.not_mem_nil c)
    · rw [if_neg (not_lt.mpr hle)]
      refine ⟨by simp, ?_⟩
      intro c hcmem
      rcases List.mem_cons.mp hcmem with hceq | hcmem2
      · rw [List.getD_cons_zero, hceq]
      · rcases List.mem_cons.mp hcmem2 with hceq | habs
        · rw [List.getD_cons_zero, hceq]
          exact hle
        · exact absurd habs (List.not_mem_nil c)

lemma outputs_tonp_gt_of_invalid (logits : ℕ → Int → ℕ → ℕ → ℚ)
    (anno : ℕ → ℕ → ℕ → Int) (b i j : ℕ)
    (h : ¬(anno b i j > 0 ∧ anno b i j ≠ 255)) :
    outputs_tonp_gt logits anno b i j = 0 := by
  rw [outputs_tonp_gt]
  simp only [if_neg h]

/-- C1: in the ground-truth-aided object-part path, a pixel whose annotation
lies strictly between 0 and 255 is predicted as whichever member of the
paired channel list of its label carries the higher logit (the argmax over
exactly those two channels), and every other pixel keeps the initial
prediction 0.  The hypothesis `anno b i j ≤ 255` records the annotation
value domain of the data model (class labels and the 255 ignore
sentinel). -/
theorem outputs_tonp_gt_aided (logits : ℕ → Int → ℕ → ℕ → ℚ)
    (anno : ℕ → ℕ → ℕ → Int) (b i j : ℕ) (hdom : anno b i j ≤ 255) :
    ((0 < anno b i j ∧ anno b i j < 255) →
      outputs_tonp_gt logits anno b i j ∈
          outputs_tonp_gt.to_pair (anno b i j) 20 ∧
        ∀ c ∈ outputs_tonp_gt.to_pair (anno b i j) 20,
          logits b c i j ≤
            logits b (outputs_tonp_gt logits anno b i j) i j) ∧
    (¬(0 < anno b i j ∧ anno b i j < 255) →
      outputs_tonp_gt logits anno b i j = 0) := by
  constructor
  · intro ⟨h1, h2⟩
    exact outputs_tonp_gt_of_valid logits anno b i j h1 (by omega)
  · intro h
    exact outputs_tonp_gt_of_invalid logits anno b i j (by omega)

/-- Closed instance of `outputs_tonp_gt_aided`: a pixel annotated 5 is
predicted inside the pair `[5, 25]`, and a pixel annotated 255 is predicted
0. -/
theorem outputs_tonp_gt_aided_witness :
    outputs_tonp_gt (fun _ c _ _ => if c = 25 then 1 else 0)
        (fun _ _ _ => 5) 0 0 0 ∈ outputs_tonp_gt.to_pair 5 20 ∧
      outputs_tonp_gt (fun _ c _ _ => if c = 0 then 1 else 0)
        (fun _ _ _ => 255) 0 0 0 = 0 := by
  have h1 := outputs_tonp_gt_aided (fun _ c _ _ => if c = 25 then 1 else 0)
    (fun _ _ _ => 5) 0 0 0 (by decide)
  have h2 := outputs_tonp_gt_aided (fun _ c _ _ => if c = 0 then 1 else 0)
    (fun _ _ _ => 255) 0 0 0 (by decide)
  exact ⟨(h1.1 (by decide)).1, h2.2 (by decide)⟩

/-- C10: every entry of the aided prediction array is either 0 or a member
of the paired channel list of the ground-truth label at that position; in
particular, for an annotation a strictly between 0 and 255 the prediction
is a itself or its counterpart (a + 20 for a ≤ 20, a − 20 for a > 20) and
never any third class. -/
theorem outputs_tonp_gt_invariant (logits : ℕ → Int → ℕ → ℕ → ℚ)
    (anno : ℕ → ℕ → ℕ → Int) (b i j : ℕ) :
    (outputs_tonp_gt logits anno b i j = 0 ∨
      outputs_tonp_gt logits anno b i j ∈
        outputs_tonp_gt.to_pair (anno b i j) 20) ∧
    (0 < anno b i j → anno b i j < 255 →
      (outputs_tonp_gt logits anno b i j = anno b i j ∨
        outputs_tonp_gt logits anno b i j =
          (if anno b i j ≤ 20 then anno b i j + 20 else anno b i j - 20))) := by
  constructor
  · by_cases hcond : anno b i j > 0 ∧ anno b i j ≠ 255
    · exact Or.inr (outputs_tonp_gt_of_valid logits anno b i j
        hcond.1 hcond.2).1
    · exact Or.inl (outputs_tonp_gt_of_invalid logits anno b i j hcond)
  · intro h1 h2
    have hmem := (outputs_tonp_gt_of_valid logits anno b i j h1 (by omega)).1
    rcases le_or_lt (anno b i j) 20 with hle | hgt
    · rw [outputs_tonp_gt.to_pair, if_neg (by omega)] at hmem
      rw [if_pos hle]
      rcases List.mem_cons.mp hmem with he | hmem2
      · exact Or.inl he
      · rcases List.mem_cons.mp hmem2 with he | habs
        · exact Or.inr he
        · exact absurd habs (List.not_mem_nil _)
    · rw [outputs_tonp_gt.to_pair, if_pos hgt] at hmem
      rw [if_neg (by omega)]
      rcases List.mem_cons.mp hmem with he | hmem2
      · exact Or.inr he
      · rcases List.mem_cons.mp hmem2 with he | habs
        · exact Or.inl he
        · exact absurd habs (List.not_mem_nil _)

/-- Modelled after `sklearn.metrics.confusion_matrix(y_true, y_pred, labels)`
as called by `validate_batch`: entry `(i, j)` counts the samples whose
ground truth equals `labels[i]` and whose prediction equals `labels[j]`; a
sample whose ground-truth or predicted value is outside the fixed label
list falls in no entry (neither a row nor a column). -/
def confusion_matrix (labels : List Int) (y_true y_pred : List Int)
    (i j : Fin labels.length) : ℕ :=
  ((y_true.zip y_pred).filter
    (fun p => p.1 == labels.get i && p.2 == labels.get j)).length

/-- Embedding of the per-batch matrix computation of `validate_batch`
(evaluation.py lines 334-348): the object-part ground truth first has every
value equal to 0 overwritten with -1
(`objpart_anno_np[objpart_anno_np == 0] = -1`), then both confusion
matrices are computed over their fixed label lists; the semantic ground
truth is used unchanged. -/
def validate_batch_matrices (objpart_labels semantic_labels : List Int)
    (objpart_anno objpart_pred semantic_anno semantic_pred : List Int) :
    (Fin objpart_labels.length → Fin objpart_labels.length → ℕ) ×
      (Fin semantic_labels.length → Fin semantic_labels.length → ℕ) :=
  let objpart_anno_masked := objpart_anno.map (fun a => if a = 0 then -1 else a)
  (fun i j =>
    confusion_matrix objpart_labels objpart_anno_masked objpart_pred i j,
   fun i j => confusion_matrix semantic_labels semantic_anno semantic_pred i j)

/-- C8: overwriting ground-truth background (0) with -1 before the
object-part confusion matrix is computed removes background pixels from the
matrix entirely — every entry counts only the pixels whose original ground
truth is nonzero (provided -1 is not a declared label), so background
appears in no row and no column — while the semantic matrix is computed
from the unmodified ground truth, retaining background as class 0. -/
theorem validate_batch_background (objpart_labels semantic_labels
    objpart_anno objpart_pred semantic_anno semantic_pred : List Int)
    (hno : (-1 : Int) ∉ objpart_labels) :
    (∀ i j : Fin objpart_labels.length,
      (validate_batch_matrices objpart_labels semantic_labels objpart_anno
          objpart_pred semantic_anno semantic_pred).1 i j =
        (((objpart_anno.zip objpart_pred).filter (fun p => p.1 != 0)).filter
          (fun p => p.1 == objpart_labels.get i &&
            p.2 == objpart_labels.get j)).length) ∧
    (validate_batch_matrices objpart_labels semantic_labels objpart_anno
        objpart_pred semantic_anno semantic_pred).2 =
      fun i j => confusion_matrix semantic_labels semantic_anno
        semantic_pred i j := by
  refine ⟨?_, rfl⟩
  intro i j
  have hlab : objpart_labels.get i ≠ -1 := by
    intro h
    exact hno (h ▸ objpart_labels.get_mem i.1 i.2)
  show ((((objpart_anno.map (fun a => if a = 0 then -1 else a)).zip
      objpart_pred).filter
      (fun p => p.1 == objpart_labels.get i &&
        p.2 == objpart_labels.get j)).length) = _
  rw [List.zip_map_left]
  rw [List.filter_map]
  rw [List.length_map]
  rw [List.filter_filter]
  congr 1
  apply List.filter_congr
  intro p hp
  simp only [Function.comp, Prod.map, id]
  by_cases h0 : p.1 = 0
  · rw [if_pos h0, h0]
    have hL : ((-1 : Int) == objpart_labels.get i) = false :=
      beq_eq_false_iff_ne.mpr (fun h => hlab h.symm)
    rw [hL]
    simp
  · rw [if_neg h0]
    have hb : (p.1 != 0) = true := bne_iff_ne.mpr h0
    rw [hb]
    simp

/-- Closed instance of `validate_batch_background`: labels `[1, 2]`,
object-part ground truth `[0, 1, 2]` (one background pixel) against
predictions `[1, 1, 2]`. -/
theorem validate_batch_background_witness :
    (validate_batch_matrices [1, 2] [0, 1] [0, 1, 2] [1, 1, 2]
        [0, 1] [0, 1]).1 ⟨0, by decide⟩ ⟨0, by decide⟩ =
      ((([(0 : Int), 1, 2].zip [(1 : Int), 1, 2]).filter
          (fun p => p.1 != 0)).filter
        (fun p => p.1 == ([1, 2] : List Int).get ⟨0, by decide⟩ &&
          p.2 == ([1, 2] : List Int).get ⟨0, by decide⟩)).length :=
  (validate_batch_background [1, 2] [0, 1] [0, 1, 2] [1, 1, 2] [0, 1] [0, 1]
    (by decide)).1 ⟨0, by decide⟩ ⟨0, by decide⟩

/-- The fixed no-parts class list hardcoded in `validate_batch`
(evaluation.py line 334). -/
def no_parts : List ℕ := [0, 4, 9, 11, 18, 20, 24, 29, 31, 38, 40]

/-- Embedding of `np.mean` on a list of values: sum divided by length. -/
def np_mean (xs : List ℚ) : ℚ := xs.sum / (xs.length : ℚ)

/-- Embedding of `objpart_mPrec` (evaluation.py lines 366-367): the mean of
the comprehension `[prec for i, prec in enumerate(objpart_prec) if i not in
no_parts]` over the per-class precision vector of the matrix. -/
def objpart_mPrec (n : ℕ) (M : ℕ → ℕ → ℕ) : ℚ :=
  np_mean ((((List.range n).map ((get_precision_recall n M).1)).enum.filter
    (fun p => !(no_parts.contains p.1))).map Prod.snd)

/-- Embedding of `objpart_mRec` (evaluation.py lines 368-369): as
`objpart_mPrec`, over the per-class recall vector. -/
def objpart_mRec (n : ℕ) (M : ℕ → ℕ → ℕ) : ℚ :=
  np_mean ((((List.range n).map ((get_precision_recall n M).2)).enum.filter
    (fun p => !(no_parts.contains p.1))).map Prod.snd)

/-- Embedding of `semantic_mIoU` (evaluation.py lines 360-362): the mean of
the whole per-class IoU vector of the matrix, with no exclusions. -/
def semantic_mIoU (n : ℕ) (M : ℕ → ℕ → ℕ) : ℚ :=
  np_mean ((List.range n).map (get_iou n M))

lemma enum_filter_map_snd {α : Type} (f : ℕ → α) (p : ℕ → Bool) (n : ℕ) :
    (((List.range n).map f).enum.filter (fun q => p q.1)).map Prod.snd
      = ((List.range n).filter p).map f := by
  induction n with
  | zero => rfl
  | succ n ih =>
      rw [List.range_succ, List.map_append, List.enum_append,
        List.filter_append, List.map_append, ih, List.filter_append,
        List.map_append]
      congr 1
      rw [List.length_map, List.length_range]
      cases hp : p n with
      | true => simp [List.enumFrom, List.filter_cons, hp]
      | false => simp [List.enumFrom, List.filter_cons, hp]

/-- C9: the object-part macro precision and recall are the arithmetic means
of the per-class values over exactly the class indices outside the fixed
no-parts list `[0, 4, 9, 11, 18, 20, 24, 29, 31, 38, 40]` (sum over the
kept indices divided by their number), while the semantic mIoU is the mean
over all classes with no exclusion; over the 41 object-part classes, 30
indices are kept. -/
theorem validate_batch_macro_averages (n : ℕ) (M : ℕ → ℕ → ℕ) :
    (objpart_mPrec n M =
      (((List.range n).filter (fun i => !(no_parts.contains i))).map
        ((get_precision_recall n M).1)).sum /
        ((((List.range n).filter (fun i => !(no_parts.contains i))).length
          : ℕ) : ℚ) ∧
     objpart_mRec n M =
      (((List.range n).filter (fun i => !(no_parts.contains i))).map
        ((get_precision_recall n M).2)).sum /
        ((((List.range n).filter (fun i => !(no_parts.contains i))).length
          : ℕ) : ℚ)) ∧
    semantic_mIoU n M = ((List.range n).map (get_iou n M)).sum / (n : ℚ) ∧
    no_parts = [0, 4, 9, 11, 18, 20, 24, 29, 31, 38, 40] ∧
    ((List.range 41).filter (fun i => !(no_parts.contains i))).length = 30 := by
  refine ⟨⟨?_, ?_⟩, ?_, rfl, by decide⟩
  · rw [objpart_mPrec,
      enum_filter_map_snd ((get_precision_recall n M).1)
        (fun i => !(no_parts.contains i)) n,
      np_mean, List.length_map]
  · rw [objpart_mRec,
      enum_filter_map_snd ((get_precision_recall n M).2)
        (fun i => !(no_parts.contains i)) n,
      np_mean, List.length_map]
  · rw [semantic_mIoU, np_mean, List.length_map, List.length_range]
